import Mathlib

/-!
Verification development for the real-time comment board server
(`server.js`: Express + Socket.IO comment & reaction demo).

The data model and the operations are shallowly embedded from the source:

* `Comment`, `User`, `DB` mirror the persisted JSON document
  (`{users, comments, nextCommentId, nextUserId}`).
* `buildCommentsTree` mirrors the tree builder (source lines 61-72).
* `createComment`, `editComment`, `deleteComment`, `reactComment` mirror the
  four mutation route handlers.  Each returns a `HandlerResult` recording the
  new dataset, the HTTP status code, the `comments:update` payloads emitted
  (`io.emit`), and how many times `saveDB` was called.
* JavaScript timestamps (`createdAt` ISO strings, compared via `new Date`)
  are modelled as naturals; `===` comparisons on ids become `=` on `Nat`.
* The recursion of `markDescendants` has no structural termination measure in
  the source (it is plain unbounded recursion), so it is embedded with an
  explicit fuel counter; `none` means the recursion did not complete within
  the given fuel.  On parent-link data where the recursion terminates at all,
  `comments.length + 1` fuel suffices (proved below).
-/

/-- The six fixed reaction kinds (source: `['like','love','haha','wow','sad','angry']`). -/
inductive ReactionKind where
  | like | love | haha | wow | sad | angry
deriving DecidableEq, Repr

/-- Per-comment reaction state: one array of user ids per kind (source line 129).
The arrays model the JSON arrays; the source pushes/splices them in place. -/
structure Reactions where
  like : List Nat
  love : List Nat
  haha : List Nat
  wow : List Nat
  sad : List Nat
  angry : List Nat
deriving DecidableEq, Repr

/-- Look up the array for one reaction kind (source: `comment.reactions[reaction]`). -/
def Reactions.get (r : Reactions) : ReactionKind → List Nat
  | .like => r.like
  | .love => r.love
  | .haha => r.haha
  | .wow => r.wow
  | .sad => r.sad
  | .angry => r.angry

/-- Replace the array for one reaction kind. -/
def Reactions.set (r : Reactions) : ReactionKind → List Nat → Reactions
  | .like, a => { r with like := a }
  | .love, a => { r with love := a }
  | .haha, a => { r with haha := a }
  | .wow, a => { r with wow := a }
  | .sad, a => { r with sad := a }
  | .angry, a => { r with angry := a }

/-- A persisted comment record (source lines 120-130).  `createdAt`/`updatedAt`
are timestamps (ISO strings in the source, order-isomorphic to naturals). -/
structure Comment where
  id : Nat
  userId : Nat
  userName : String
  avatar : String
  content : String
  createdAt : Nat
  updatedAt : Option Nat
  parentId : Option Nat
  reactions : Reactions
deriving DecidableEq, Repr

/-- A persisted user record (source lines 83-89). -/
structure User where
  id : Nat
  name : String
  email : String
  passwordHash : String
  avatar : String
deriving DecidableEq, Repr

/-- The persisted dataset blob (`db.json`, source line 28). -/
structure DB where
  users : List User
  comments : List Comment
  nextCommentId : Nat
  nextUserId : Nat
deriving DecidableEq, Repr

/-- A node of the transient threaded view: a comment plus its replies
(source: `{ ...c, replies: [] }`). -/
inductive CommentTree where
  | node : Comment → List CommentTree → CommentTree

/-- The comment stored at a tree node. -/
def CommentTree.comment : CommentTree → Comment
  | .node c _ => c

/-- The replies sequence of a tree node. -/
def CommentTree.replies : CommentTree → List CommentTree
  | .node _ rs => rs

mutual

/-- Build the tree node for one comment: its replies are the comments whose
`parentId` equals this comment's id, in the flat list's order — exactly the
order in which the source's second `forEach` pushes into `map[c.parentId].replies`.
The source realizes the recursion through shared mutable `map` entries; here it
is explicit recursion, bounded by `fuel`.  Whenever the flat list has pairwise
distinct ids, `comments.length` fuel reproduces the source's tree exactly
(rooted parent chains cannot be longer than the list; proved below). -/
def buildNode : Nat → List Comment → Comment → CommentTree
  | 0, _, c => .node c []
  | fuel + 1, comments, c =>
      .node c (buildNodes fuel comments (comments.filter (fun x => x.parentId = some c.id)))

/-- Build tree nodes for a list of comments, left to right. -/
def buildNodes : Nat → List Comment → List Comment → List CommentTree
  | _, _, [] => []
  | fuel, comments, c :: cs => buildNode fuel comments c :: buildNodes fuel comments cs

end

/-- Comments newer first: the source's root comparator
`(a,b) => new Date(b.createdAt) - new Date(a.createdAt)`. -/
def newerFirst (a b : Comment) : Prop := b.createdAt ≤ a.createdAt

instance : DecidableRel newerFirst := fun a b => inferInstanceAs (Decidable (b.createdAt ≤ a.createdAt))

instance : IsTotal Comment newerFirst := ⟨fun a b => le_total b.createdAt a.createdAt⟩

instance : IsTrans Comment newerFirst := ⟨fun _ _ _ h1 h2 => le_trans h2 h1⟩

/-- The tree builder (source lines 61-72, `buildCommentsTree`):
group every comment under its parent (comments whose parent id matches no map
entry are silently dropped, because only map entries reachable from `roots`
appear in the output), collect the `parentId == null` comments as roots in
flat-list order, and sort only the roots newest-first.  `Array.prototype.sort`
is a stable comparison sort; it is modelled by `List.insertionSort`, which is
stable. -/
def buildCommentsTree (comments : List Comment) : List CommentTree :=
  (List.insertionSort newerFirst (comments.filter (fun c => c.parentId = none))).map
    (fun c => buildNode comments.length comments c)

mutual

/-- All comments stored in a tree, root first, depth-first. -/
def nodesTree : CommentTree → List Comment
  | .node c rs => c :: nodesList rs

/-- All comments stored in a forest. -/
def nodesList : List CommentTree → List Comment
  | [] => []
  | t :: ts => nodesTree t ++ nodesList ts

end

mutual

/-- All subtrees of a tree (including the tree itself). -/
def subtreesTree : CommentTree → List CommentTree
  | .node c rs => .node c rs :: subtreesList rs

/-- All subtrees of every tree in a forest. -/
def subtreesList : List CommentTree → List CommentTree
  | [] => []
  | t :: ts => subtreesTree t ++ subtreesList ts

end

/-- Result of one route handler call: the dataset afterwards, the HTTP status
code sent, the comment returned in the response body (if any), the payloads of
the `comments:update` events emitted via `io.emit`, and the number of
`saveDB` calls performed. -/
structure HandlerResult where
  db : DB
  code : Nat
  comment : Option Comment
  emits : List (List CommentTree)
  saves : Nat

/-- JavaScript's `String.prototype.trim` (the source applies `.trim()` to the
source code): strip leading and trailing whitespace.  (Defined over the character
list so that it evaluates by kernel reduction.) -/
def jsTrim (s : String) : String :=
  ⟨List.reverse ((List.reverse (s.data.dropWhile Char.isWhitespace)).dropWhile
    Char.isWhitespace)⟩

/-- `POST /api/comments` (source lines 113-136).  `content` falsy or
whitespace-only is rejected with 400; an identity that resolves to no stored
user is rejected with 401; otherwise the comment is appended, the counter
bumped, the dataset saved once and the rebuilt tree emitted once.
The body's `parentId` is normalized before this point (`parentId || null`,
modelled by `storedParentId` below); here it arrives as an `Option Nat`. -/
def createComment (db : DB) (uid : Nat) (content : String) (parentId : Option Nat) (now : Nat) :
    HandlerResult :=
  if jsTrim content = "" then ⟨db, 400, none, [], 0⟩
  else
    match db.users.find? (fun u => u.id = uid) with
    | none => ⟨db, 401, none, [], 0⟩
    | some user =>
        let newComment : Comment :=
          { id := db.nextCommentId
            userId := user.id
            userName := user.name
            avatar := user.avatar
            content := jsTrim content
            createdAt := now
            updatedAt := none
            parentId := parentId
            reactions := ⟨[], [], [], [], [], []⟩ }
        let db' : DB :=
          { db with
              comments := db.comments ++ [newComment]
              nextCommentId := db.nextCommentId + 1 }
        ⟨db', 201, some newComment, [buildCommentsTree db'.comments], 1⟩

/-- Replace the first list element satisfying `p` by its image under `f`:
this is how the source's `find`-then-mutate-in-place acts on the flat list. -/
def updateFirst (p : α → Bool) (f : α → α) : List α → List α
  | [] => []
  | x :: xs => if p x then f x :: xs else x :: updateFirst p f xs

/-- `PUT /api/comments/:id` (source lines 138-152).  Note the source checks the
content for emptiness before looking the comment up, so an empty body yields
400 even for a missing comment or a foreign caller; then 404 if no comment has
this id, 403 if the caller is not the author; on success the found comment's
`content` is replaced by the trimmed text and `updatedAt` stamped to now. -/
def editComment (db : DB) (uid : Nat) (commentId : Nat) (content : String) (now : Nat) :
    HandlerResult :=
  if jsTrim content = "" then ⟨db, 400, none, [], 0⟩
  else
    match db.comments.find? (fun c => c.id = commentId) with
    | none => ⟨db, 404, none, [], 0⟩
    | some comment =>
        if comment.userId ≠ uid then ⟨db, 403, none, [], 0⟩
        else
          let comment' := { comment with content := jsTrim content, updatedAt := some now }
          let db' : DB :=
            { db with
                comments :=
                  updateFirst (fun c => c.id = commentId)
                    (fun c => { c with content := jsTrim content, updatedAt := some now })
                    db.comments }
          ⟨db', 200, some comment', [buildCommentsTree db'.comments], 1⟩

/-- The cascade collection of `DELETE /api/comments/:id` (source lines 161-166,
`markDescendants`): add the id to the removal set, then recurse into every
comment whose `parentId` equals this id, left to right (the source's
`forEach`), threading the removal set.  The source recursion carries no
visited set and no other termination measure, so it is embedded with fuel;
`none` means the recursion did not complete within `fuel` nested calls, and a
`none` arising anywhere aborts the whole traversal. -/
def markDescendantsFuel : Nat → List Comment → Nat → Finset Nat → Option (Finset Nat)
  | 0, _, _, _ => none
  | fuel + 1, comments, i, acc =>
      (comments.filter (fun c => c.parentId = some i)).foldl
        (fun s c => s.bind (fun a => markDescendantsFuel fuel comments c.id a))
        (some (insert i acc))

/-- `DELETE /api/comments/:id` (source lines 154-171): 404 if no comment has
the id, 403 if the caller is not the author, otherwise collect the target and
its transitive descendants and keep only the comments outside the removal set,
in one save and one emit.  The fuel `comments.length + 1` is sufficient
whenever the source recursion terminates at all (acyclic parent links, proved
below); when it runs out (cyclic parent links) the source recursion never
completes — the Node runtime aborts the request, nothing is saved — modelled
as status 500 with the dataset unchanged. -/
def deleteComment (db : DB) (uid : Nat) (commentId : Nat) : HandlerResult :=
  match db.comments.find? (fun c => c.id = commentId) with
  | none => ⟨db, 404, none, [], 0⟩
  | some comment =>
      if comment.userId ≠ uid then ⟨db, 403, none, [], 0⟩
      else
        match markDescendantsFuel (db.comments.length + 1) db.comments commentId ∅ with
        | none => ⟨db, 500, none, [], 0⟩
        | some toRemove =>
            let db' : DB :=
              { db with comments := db.comments.filter (fun c => ¬ c.id ∈ toRemove) }
            ⟨db', 200, none, [buildCommentsTree db'.comments], 1⟩

/-- The source's reaction-kind validation (`valid.includes(reaction)`, line
175-176) combined with using the string as the key of `comment.reactions`. -/
def parseReaction (s : String) : Option ReactionKind :=
  if s = "like" then some .like
  else if s = "love" then some .love
  else if s = "haha" then some .haha
  else if s = "wow" then some .wow
  else if s = "sad" then some .sad
  else if s = "angry" then some .angry
  else none

/-- The toggle on one reaction array (source lines 182-185):
`indexOf` / `splice` removes the first occurrence when present, `push`
appends at the end when absent. -/
def toggleList (arr : List Nat) (u : Nat) : List Nat :=
  if u ∈ arr then arr.erase u else arr ++ [u]

/-- Toggle one user in one reaction kind of a comment's reaction state. -/
def toggleReaction (r : Reactions) (k : ReactionKind) (u : Nat) : Reactions :=
  r.set k (toggleList (r.get k) u)

/-- `POST /api/reactions` (source lines 173-190): 400 on an unknown reaction
kind, 404 if the comment does not exist, otherwise toggle the caller in that
kind's array, save once, emit once, and answer with the updated reactions. -/
def reactComment (db : DB) (uid : Nat) (commentId : Nat) (reaction : String) : HandlerResult :=
  match parseReaction reaction with
  | none => ⟨db, 400, none, [], 0⟩
  | some k =>
      match db.comments.find? (fun c => c.id = commentId) with
      | none => ⟨db, 404, none, [], 0⟩
      | some comment =>
          let comment' := { comment with reactions := toggleReaction comment.reactions k uid }
          let db' : DB :=
            { db with
                comments :=
                  updateFirst (fun c => c.id = commentId)
                    (fun c => { c with reactions := toggleReaction c.reactions k uid })
                    db.comments }
          ⟨db', 200, some comment', [buildCommentsTree db'.comments], 1⟩

/-- A JavaScript value as it may arrive in the request body's `parentId`. -/
inductive JVal where
  | jundef
  | jnull
  | jnum : Int → JVal
  | jstr : String → JVal
  | jbool : Bool → JVal
deriving DecidableEq, Repr

/-- JavaScript truthiness for the values above. -/
def JVal.truthy : JVal → Bool
  | .jundef => false
  | .jnull => false
  | .jnum n => n ≠ 0
  | .jstr s => s ≠ ""
  | .jbool b => b

/-- What the create handler stores as `parentId` (source lines 114 and 128):
destructuring `const { parentId = null } = req.body` substitutes `null` when
the property is absent or `undefined` (`none` models an absent property), and
the stored field is `parentId || null`. -/
def storedParentId (raw : Option JVal) : JVal :=
  let p : JVal :=
    match raw with
    | none => .jnull
    | some .jundef => .jnull
    | some v => v
  if p.truthy then p else .jnull

/-- `io.emit` (Socket.IO), modelled from the spec: delivering an event to the
broadcast channel hands one copy of the payload to every currently connected
viewer — there is no self-exclusion, so the requester's socket receives it
too when connected. -/
def broadcast (viewers : List Nat) (payload : List (List CommentTree)) :
    List (Nat × List (List CommentTree)) :=
  viewers.map (fun v => (v, payload))

/-- One mutation request in a lifetime of the dataset. -/
inductive Op where
  | create : Nat → String → Option Nat → Nat → Op
  | edit : Nat → Nat → String → Nat → Op
  | delete : Nat → Nat → Op
  | react : Nat → Nat → String → Op

/-- Run one request against the dataset; the second component is the comment
id assigned by a successful create (`none` otherwise). -/
def applyOp (db : DB) : Op → DB × Option Nat
  | .create uid content parentId now =>
      let r := createComment db uid content parentId now
      (r.db, r.comment.map (fun c => c.id))
  | .edit uid cid content now => ((editComment db uid cid content now).db, none)
  | .delete uid cid => ((deleteComment db uid cid).db, none)
  | .react uid cid reaction => ((reactComment db uid cid reaction).db, none)

/-- Run a sequence of requests, collecting the comment ids assigned by the
successful creates, in order. -/
def runOps : DB → List Op → DB × List Nat
  | db, [] => (db, [])
  | db, op :: rest =>
      let r := applyOp db op
      let rest' := runOps r.1 rest
      (rest'.1, r.2.toList ++ rest'.2)

/-! ### Parent-link chains

`parentLink comments i j` says the comment with id `j` is a direct reply to
id `i`; `reach` is its reflexive-transitive closure, the "transitively
reachable by following `parentId` links" of the specification.  `predId`
follows one `parentId` link upwards, `predN` iterates it: for lists with
pairwise distinct ids this function is the deterministic skeleton of every
parent chain, and all counting arguments below go through it. -/

/-- Direct reply: some comment of the list has id `j` and `parentId = some i`. -/
def parentLink (comments : List Comment) (i j : Nat) : Prop :=
  ∃ c, c ∈ comments ∧ c.id = j ∧ c.parentId = some i

/-- Transitive reachability by following `parentId` links downwards from `i`. -/
def reach (comments : List Comment) (i j : Nat) : Prop :=
  Relation.ReflTransGen (parentLink comments) i j

/-- `r` is the id of a top-level comment of the list. -/
def isRootId (comments : List Comment) (r : Nat) : Prop :=
  ∃ c, c ∈ comments ∧ c.id = r ∧ c.parentId = none

/-- One step up the parent chain from id `j`. -/
def predId (comments : List Comment) (j : Nat) : Option Nat :=
  (comments.find? (fun c => c.id = j)).bind (fun c => c.parentId)

/-- `k` steps up the parent chain from id `j`. -/
def predN (comments : List Comment) : Nat → Nat → Option Nat
  | 0, j => some j
  | k + 1, j => (predId comments j).bind (predN comments k)

/-- No parent-link cycles: no id strictly reaches itself. -/
def acyclicLinks (comments : List Comment) : Prop :=
  ∀ i, ¬ Relation.TransGen (parentLink comments) i i

/-- Ids of the list, as a finset. -/
def idSet (comments : List Comment) : Finset Nat :=
  (comments.map (fun c => c.id)).toFinset

theorem find?_id_eq_self {comments : List Comment}
    (hn : (comments.map (fun c => c.id)).Nodup) {c : Comment} (hc : c ∈ comments) :
    comments.find? (fun x => x.id = c.id) = some c := by
  induction comments with
  | nil => cases hc
  | cons a l ih =>
      rcases List.mem_cons.1 hc with rfl | hc'
      · rw [List.find?_cons_of_pos]
        simp
      · have hne : ¬ (a.id = c.id) := by
          intro h
          apply (List.nodup_cons.1 hn).1
          have hm : c.id ∈ List.map (fun c : Comment => c.id) l :=
            List.mem_map_of_mem (fun c => c.id) hc'
          simpa [h] using hm
        rw [List.find?_cons_of_neg, ih (List.nodup_cons.1 hn).2 hc']
        simp [hne]

theorem predId_eq_parentId {comments : List Comment}
    (hn : (comments.map (fun c => c.id)).Nodup) {c : Comment} (hc : c ∈ comments) :
    predId comments c.id = c.parentId := by
  simp [predId, find?_id_eq_self hn hc]

theorem parentLink_iff_predId {comments : List Comment}
    (hn : (comments.map (fun c => c.id)).Nodup) {i j : Nat} :
    parentLink comments i j ↔ (∃ c, c ∈ comments ∧ c.id = j) ∧ predId comments j = some i := by
  constructor
  · rintro ⟨c, hc, rfl, hp⟩
    exact ⟨⟨c, hc, rfl⟩, by rw [predId_eq_parentId hn hc, hp]⟩
  · rintro ⟨⟨c, hc, rfl⟩, hp⟩
    rw [predId_eq_parentId hn hc] at hp
    exact ⟨c, hc, rfl, hp⟩

theorem predN_add (comments : List Comment) (a b j : Nat) :
    predN comments (a + b) j = (predN comments a j).bind (predN comments b) := by
  induction a generalizing j with
  | zero => simp [predN]
  | succ a ih =>
      have : a + 1 + b = (a + b) + 1 := by omega
      rw [this]
      simp only [predN]
      cases predId comments j with
      | none => simp
      | some m => simpa using ih m

theorem predN_one (comments : List Comment) (j : Nat) :
    predN comments 1 j = predId comments j := by
  simp [predN]

theorem predN_none_stable {comments : List Comment} {a j : Nat}
    (h : predN comments a j = none) (b : Nat) :
    predN comments (a + b) j = none := by
  rw [predN_add, h]
  rfl

theorem predN_isSome_of_le {comments : List Comment} {b j : Nat} {v : Nat}
    (h : predN comments b j = some v) {a : Nat} (hab : a ≤ b) :
    ∃ w, predN comments a j = some w := by
  rcases hw : predN comments a j with _ | w
  · rw [show b = a + (b - a) by omega, predN_none_stable hw] at h
    cases h
  · exact ⟨w, rfl⟩

theorem predId_of_isRootId {comments : List Comment}
    (hn : (comments.map (fun c => c.id)).Nodup) {r : Nat} (hr : isRootId comments r) :
    predId comments r = none := by
  rcases hr with ⟨c, hc, rfl, hp⟩
  rw [predId_eq_parentId hn hc, hp]

/-- Reachability along parent links is exactly iterating `predId` upwards. -/
theorem reach_iff_predN {comments : List Comment}
    (hn : (comments.map (fun c => c.id)).Nodup) {i j : Nat} :
    reach comments i j ↔ ∃ k, predN comments k j = some i := by
  constructor
  · intro h
    induction h with
    | refl => exact ⟨0, rfl⟩
    | tail _ hstep ih =>
        rcases ih with ⟨k, hk⟩
        rcases (parentLink_iff_predId hn).1 hstep with ⟨_, hp⟩
        refine ⟨k + 1, ?_⟩
        simp only [predN, hp]
        exact hk
  · rintro ⟨k, hk⟩
    induction k generalizing j with
    | zero =>
        cases hk
        exact Relation.ReflTransGen.refl
    | succ k ih =>
        simp only [predN] at hk
        rcases hp : predId comments j with _ | m
        · rw [hp] at hk; cases hk
        · rw [hp] at hk
          simp only [Option.some_bind] at hk
          have hm : parentLink comments m j := by
            rcases hfind : comments.find? (fun c => c.id = j) with _ | c
            · simp [predId, hfind] at hp
            · have hcj : c.id = j := by
                have := List.find?_some hfind
                simpa using this
              have hcm : c.parentId = some m := by
                simpa [predId, hfind] using hp
              exact ⟨c, List.mem_of_find?_eq_some hfind, hcj, hcm⟩
          exact (ih hk).tail hm

/-- A parent chain that reaches a root hits every intermediate id exactly
once: iterating `predId` is injective below the root hit. -/
theorem predN_inj_until_root {comments : List Comment}
    (hn : (comments.map (fun c => c.id)).Nodup) {r d j : Nat}
    (hr : isRootId comments r) (hd : predN comments d j = some r)
    {a b : Nat} (hab : a < b) (hbd : b ≤ d) :
    predN comments a j ≠ predN comments b j := by
  intro heq
  rcases predN_isSome_of_le hd (le_of_lt (lt_of_lt_of_le hab hbd)) with ⟨v, hv⟩
  have hb : predN comments b j = some v := heq ▸ hv
  have h1 : predN comments (a + (d - b)) j = some r := by
    rw [predN_add, hv, Option.some_bind]
    have : predN comments (b + (d - b)) j = some r := by
      rw [show b + (d - b) = d by omega]; exact hd
    rw [predN_add, hb, Option.some_bind] at this
    exact this
  have h2 : predN comments d j = none := by
    have : predN comments ((a + (d - b)) + (b - a)) j = none := by
      rw [predN_add, h1, Option.some_bind]
      have hb1 : b - a = 1 + (b - a - 1) := by omega
      rw [hb1, predN_add, predN_one, predId_of_isRootId hn hr]
      rfl
    rw [show (a + (d - b)) + (b - a) = d by omega] at this
    exact this
  rw [hd] at h2
  cases h2

/-- Two hits of the same root along one chain happen at the same height. -/
theorem predN_root_height_unique {comments : List Comment}
    (hn : (comments.map (fun c => c.id)).Nodup) {r j : Nat} (hr : isRootId comments r)
    {a b : Nat} (ha : predN comments a j = some r) (hb : predN comments b j = some r) :
    a = b := by
  by_contra hne
  rcases Nat.lt_or_ge a b with h | h
  · exact predN_inj_until_root hn hr hb h (le_refl b) (ha.trans hb.symm)
  · have h' : b < a := by omega
    exact predN_inj_until_root hn hr ha h' (le_refl a) (hb.trans ha.symm)

/-- Every value on a root-reaching chain is an id of the list. -/
theorem predN_mem_idSet {comments : List Comment} {r d j : Nat}
    (hr : isRootId comments r) (hd : predN comments d j = some r)
    {k v : Nat} (hk : k ≤ d) (hv : predN comments k j = some v) :
    v ∈ idSet comments := by
  rcases Nat.eq_or_lt_of_le hk with rfl | hlt
  · rcases hr with ⟨c, hc, hcr, _⟩
    have : v = r := by rw [hv] at hd; exact (Option.some_inj.1 hd)
    subst this
    exact List.mem_toFinset.2 (hcr ▸ List.mem_map_of_mem (fun c => c.id) hc)
  · have hd' : predN comments (k + (d - k)) j = some r := by
      rw [show k + (d - k) = d by omega]; exact hd
    rw [predN_add, hv, Option.some_bind] at hd'
    have h1 : d - k = 1 + (d - k - 1) := by omega
    rw [h1, predN_add, predN_one] at hd'
    rcases hp : predId comments v with _ | m
    · rw [hp] at hd'; cases hd'
    · rcases hfind : comments.find? (fun c => c.id = v) with _ | c
      · simp [predId, hfind] at hp
      · have hcv : c.id = v := by simpa using List.find?_some hfind
        exact List.mem_toFinset.2
          (hcv ▸ List.mem_map_of_mem (fun c => c.id) (List.mem_of_find?_eq_some hfind))

/-- A chain that reaches a root is shorter than the list: its hits are
pairwise distinct ids of the list. -/
theorem predN_root_height_lt {comments : List Comment}
    (hn : (comments.map (fun c => c.id)).Nodup) {r d j : Nat}
    (hr : isRootId comments r) (hd : predN comments d j = some r) :
    d < comments.length := by
  have hcard : d + 1 ≤ (idSet comments).card := by
    have hsome : ∀ k : Fin (d + 1), ∃ v, predN comments k.val j = some v := by
      intro k
      exact predN_isSome_of_le hd (by omega)
    classical
    let f : Fin (d + 1) → Nat := fun k => (predN comments k.val j).getD 0
    have hmaps : ∀ k : Fin (d + 1), f k ∈ idSet comments := by
      intro k
      rcases hsome k with ⟨v, hv⟩
      have : f k = v := by simp [f, hv]
      rw [this]
      exact predN_mem_idSet hr hd (by omega) hv
    have hinj : Function.Injective f := by
      intro a b hab
      rcases hsome a with ⟨va, hva⟩
      rcases hsome b with ⟨vb, hvb⟩
      by_contra hne
      have hne' : a.val ≠ b.val := fun h => hne (Fin.ext h)
      have : predN comments a.val j ≠ predN comments b.val j := by
        rcases Nat.lt_or_ge a.val b.val with h | h
        · exact predN_inj_until_root hn hr hd h (by omega)
        · exact fun heq =>
            predN_inj_until_root hn hr hd (by omega : b.val < a.val) (by omega) heq.symm
      rw [hva, hvb] at this
      have : va ≠ vb := fun h => this (h ▸ rfl)
      apply this
      have h1 : f a = va := by simp [f, hva]
      have h2 : f b = vb := by simp [f, hvb]
      rw [← h1, ← h2, hab]
    calc d + 1 = (Finset.univ : Finset (Fin (d + 1))).card := by simp
      _ ≤ (idSet comments).card :=
          Finset.card_le_card_of_injOn f (fun a _ => hmaps a) (Function.Injective.injOn hinj)
  have : (idSet comments).card ≤ comments.length := by
    have := List.toFinset_card_le (l := comments.map (fun c => c.id))
    simpa [idSet] using this
  omega

theorem buildNode_comment (fuel : Nat) (comments : List Comment) (c : Comment) :
    (buildNode fuel comments c).comment = c := by
  cases fuel <;> simp [buildNode, CommentTree.comment]

theorem nodesList_buildNodes (fuel : Nat) (comments cs : List Comment) :
    nodesList (buildNodes fuel comments cs)
      = cs.flatMap (fun y => nodesTree (buildNode fuel comments y)) := by
  induction cs with
  | nil => simp [buildNodes, nodesList]
  | cons y ys ih => simp [buildNodes, nodesList, ih]

theorem subtreesList_buildNodes (fuel : Nat) (comments cs : List Comment) :
    subtreesList (buildNodes fuel comments cs)
      = cs.flatMap (fun y => subtreesTree (buildNode fuel comments y)) := by
  induction cs with
  | nil => simp [buildNodes, subtreesList]
  | cons y ys ih => simp [buildNodes, subtreesList, ih]

theorem map_comment_buildNodes (fuel : Nat) (comments cs : List Comment) :
    (buildNodes fuel comments cs).map CommentTree.comment = cs := by
  induction cs with
  | nil => simp [buildNodes]
  | cons y ys ih => simp [buildNodes, buildNode_comment, ih]

theorem mem_children_iff {comments : List Comment} {i : Nat} {y : Comment} :
    y ∈ comments.filter (fun x => x.parentId = some i) ↔
      y ∈ comments ∧ y.parentId = some i := by
  simp [List.mem_filter]

/-- Soundness of the fueled tree construction on rooted comments: whenever the
comment sits on a parent chain of height `d` below a root and the fuel covers
the rest of the list, the subtree built for it contains exactly the comments
reachable from it (each exactly once), and every node's replies sequence is
the flat list's filter for that node, in flat-list order. -/
theorem buildNode_sound {comments : List Comment}
    (hn : (comments.map (fun c => c.id)).Nodup) :
    ∀ fuel (c : Comment), c ∈ comments →
      ∀ r d, isRootId comments r → predN comments d c.id = some r →
        comments.length ≤ fuel + d →
        ((∀ x, x ∈ nodesTree (buildNode fuel comments c) ↔
            x ∈ comments ∧ reach comments c.id x.id)
          ∧ (nodesTree (buildNode fuel comments c)).Nodup
          ∧ (∀ t, t ∈ subtreesTree (buildNode fuel comments c) →
              t.replies.map CommentTree.comment
                = comments.filter (fun x => x.parentId = some t.comment.id))) := by
  intro fuel
  induction fuel with
  | zero =>
      intro c _ r d hr hd hlen
      have := predN_root_height_lt hn hr hd
      omega
  | succ f ih =>
      intro c hc r d hr hd hlen
      have hchild :
          ∀ y, y ∈ comments.filter (fun x => x.parentId = some c.id) →
            y ∈ comments ∧ y.parentId = some c.id ∧
              predN comments (d + 1) y.id = some r :=
        by
        intro y hy
        rcases mem_children_iff.1 hy with ⟨hy_mem, hy_par⟩
        refine ⟨hy_mem, hy_par, ?_⟩
        rw [show d + 1 = 1 + d by omega, predN_add, predN_one,
          predId_eq_parentId hn hy_mem, hy_par, Option.some_bind]
        exact hd
      have hlen' : comments.length ≤ f + (d + 1) := by omega
      have hstep_of_child :
          ∀ y, y ∈ comments.filter (fun x => x.parentId = some c.id) →
            parentLink comments c.id y.id := by
        intro y hy
        rcases mem_children_iff.1 hy with ⟨hy_mem, hy_par⟩
        exact ⟨y, hy_mem, rfl, hy_par⟩
      -- chain heights: any comment in a child's subtree sits `k + 1 + d` above
      -- nothing, i.e. hits the root `r` at a unique height
      have hsubtree_height :
          ∀ y, y ∈ comments.filter (fun x => x.parentId = some c.id) →
            ∀ x : Comment, x ∈ comments → reach comments y.id x.id →
              ∃ k, predN comments k x.id = some y.id ∧
                predN comments (k + 1 + d) x.id = some r := by
        intro y hy x _ hreach
        rcases (reach_iff_predN hn).1 hreach with ⟨k, hk⟩
        rcases hchild y hy with ⟨hy_mem, hy_par, _⟩
        refine ⟨k, hk, ?_⟩
        rw [show k + 1 + d = k + (1 + d) by omega, predN_add, hk, Option.some_bind,
          predN_add, predN_one, predId_eq_parentId hn hy_mem, hy_par, Option.some_bind]
        exact hd
      constructor
      · -- membership
        intro x
        simp only [buildNode, nodesTree, List.mem_cons, nodesList_buildNodes,
          List.mem_flatMap]
        constructor
        · rintro (rfl | ⟨y, hy, hx⟩)
          · exact ⟨hc, Relation.ReflTransGen.refl⟩
          · rcases hchild y hy with ⟨hy_mem, hy_par, hy_pred⟩
            have := ((ih y hy_mem r (d + 1) hr hy_pred hlen').1 x).1 hx
            exact ⟨this.1, Relation.ReflTransGen.head (hstep_of_child y hy) this.2⟩
        · rintro ⟨hx_mem, hreach⟩
          rcases Relation.ReflTransGen.cases_head hreach with heq | ⟨m, hstep, hrest⟩
          · left
            exact List.inj_on_of_nodup_map hn hx_mem hc heq.symm
          · right
            rcases hstep with ⟨y, hy_mem, hy_id, hy_par⟩
            have hy_filt : y ∈ comments.filter (fun x => x.parentId = some c.id) :=
              mem_children_iff.2 ⟨hy_mem, hy_par⟩
            refine ⟨y, hy_filt, ?_⟩
            rcases hchild y hy_filt with ⟨_, _, hy_pred⟩
            exact ((ih y hy_mem r (d + 1) hr hy_pred hlen').1 x).2 ⟨hx_mem, hy_id ▸ hrest⟩
      constructor
      · -- nodup
        simp only [buildNode, nodesTree, List.nodup_cons, nodesList_buildNodes]
        constructor
        · -- the head comment does not reappear below
          rw [List.mem_flatMap]
          rintro ⟨y, hy, hcy⟩
          rcases hchild y hy with ⟨hy_mem, hy_par, hy_pred⟩
          have hreach := (((ih y hy_mem r (d + 1) hr hy_pred hlen').1 c).1 hcy).2
          rcases hsubtree_height y hy c hc hreach with ⟨k, _, hk2⟩
          have := predN_root_height_unique hn hr hk2 hd
          omega
        · rw [List.nodup_flatMap]
          have hchn : (comments.filter (fun x => x.parentId = some c.id)).Nodup :=
            (hn.of_map).filter _
          constructor
          · intro y hy
            rcases hchild y hy with ⟨hy_mem, _, hy_pred⟩
            exact (ih y hy_mem r (d + 1) hr hy_pred hlen').2.1
          · rw [List.pairwise_iff_forall_sublist]
            intro y1 y2 hsub
            have h1 : y1 ∈ comments.filter (fun x => x.parentId = some c.id) :=
              hsub.subset (by simp)
            have h2 : y2 ∈ comments.filter (fun x => x.parentId = some c.id) :=
              hsub.subset (by simp)
            have hne : y1 ≠ y2 := by
              have := hchn.sublist hsub
              simp only [List.nodup_cons, List.mem_singleton] at this
              exact this.1
            intro x hx1 hx2
            rcases hchild y1 h1 with ⟨h1_mem, _, h1_pred⟩
            rcases hchild y2 h2 with ⟨h2_mem, _, h2_pred⟩
            have hr1 := ((ih y1 h1_mem r (d + 1) hr h1_pred hlen').1 x).1 hx1
            have hr2 := ((ih y2 h2_mem r (d + 1) hr h2_pred hlen').1 x).1 hx2
            rcases hsubtree_height y1 h1 x hr1.1 hr1.2 with ⟨k1, hk1, hk1r⟩
            rcases hsubtree_height y2 h2 x hr2.1 hr2.2 with ⟨k2, hk2, hk2r⟩
            have hkk : k1 + 1 + d = k2 + 1 + d := predN_root_height_unique hn hr hk1r hk2r
            have : k1 = k2 := by omega
            subst this
            rw [hk1] at hk2
            exact hne (List.inj_on_of_nodup_map hn h1_mem h2_mem (Option.some_inj.1 hk2))
      · -- replies sequences
        intro t ht
        simp only [buildNode, subtreesTree, List.mem_cons, subtreesList_buildNodes,
          List.mem_flatMap] at ht
        rcases ht with rfl | ⟨y, hy, hty⟩
        · simp only [CommentTree.replies, CommentTree.comment]
          exact map_comment_buildNodes f comments _
        · rcases hchild y hy with ⟨hy_mem, _, hy_pred⟩
          exact (ih y hy_mem r (d + 1) hr hy_pred hlen').2.2 t hty

theorem nodesList_map (g : Comment → CommentTree) (l : List Comment) :
    nodesList (l.map g) = l.flatMap (fun x => nodesTree (g x)) := by
  induction l with
  | nil => simp [nodesList]
  | cons y ys ih => simp [nodesList, ih]

theorem subtreesList_map (g : Comment → CommentTree) (l : List Comment) :
    subtreesList (l.map g) = l.flatMap (fun x => subtreesTree (g x)) := by
  induction l with
  | nil => simp [subtreesList]
  | cons y ys ih => simp [subtreesList, ih]

theorem buildCommentsTree_map_comment (comments : List Comment) :
    (buildCommentsTree comments).map CommentTree.comment
      = List.insertionSort newerFirst (comments.filter (fun c => c.parentId = none)) := by
  simp [buildCommentsTree, List.map_map, Function.comp_def, buildNode_comment]

theorem mem_filter_parent_none {comments : List Comment} {c : Comment} :
    c ∈ comments.filter (fun x => x.parentId = none) ↔
      c ∈ comments ∧ c.parentId = none := by
  simp [List.mem_filter]

theorem mem_sorted_roots_iff {comments : List Comment} {c : Comment} :
    c ∈ List.insertionSort newerFirst (comments.filter (fun x => x.parentId = none)) ↔
      c ∈ comments ∧ c.parentId = none := by
  rw [List.mem_insertionSort, mem_filter_parent_none]

/-- Distinct chain heights from one id cannot both land on roots. -/
theorem predN_two_roots {comments : List Comment}
    (hn : (comments.map (fun c => c.id)).Nodup) {j a b r1 r2 : Nat}
    (h1 : isRootId comments r1) (h2 : isRootId comments r2)
    (ha : predN comments a j = some r1) (hb : predN comments b j = some r2) :
    r1 = r2 := by
  have key : ∀ {a b : Nat} {r1 r2 : Nat}, isRootId comments r1 → isRootId comments r2 →
      predN comments a j = some r1 → predN comments b j = some r2 → a ≤ b → r1 = r2 := by
    intro a b r1 r2 h1 h2 ha hb hab
    have hb' : predN comments (a + (b - a)) j = some r2 := by
      rw [show a + (b - a) = b by omega]; exact hb
    rw [predN_add, ha, Option.some_bind] at hb'
    rcases Nat.eq_zero_or_pos (b - a) with hz | hpos
    · rw [hz] at hb'
      exact Option.some_inj.1 hb'
    · rw [show b - a = 1 + (b - a - 1) by omega, predN_add, predN_one,
        predId_of_isRootId hn h1] at hb'
      cases hb'
  rcases le_total a b with h | h
  · exact key h1 h2 ha hb h
  · exact (key h2 h1 hb ha h).symm

/-- Claim C3: for every flat comment list (with the data model's pairwise
distinct ids), `buildCommentsTree` returns exactly the `parentId = null`
comments as roots, ordered by `createdAt` descending (newest first), while the
replies sequence of every node of the resulting forest is exactly the flat
list's filter for that node's id, i.e. in original insertion order, never
re-sorted. -/
theorem claim3_roots_sorted_replies_in_order (comments : List Comment)
    (hn : (comments.map (fun c => c.id)).Nodup) :
    ((buildCommentsTree comments).map CommentTree.comment).Perm
        (comments.filter (fun c => c.parentId = none))
    ∧ ((buildCommentsTree comments).map CommentTree.comment).Pairwise
        (fun a b => b.createdAt ≤ a.createdAt)
    ∧ (∀ t, t ∈ subtreesList (buildCommentsTree comments) →
        t.replies.map CommentTree.comment
          = comments.filter (fun x => x.parentId = some t.comment.id)) := by
  refine ⟨?_, ?_, ?_⟩
  · rw [buildCommentsTree_map_comment]
    exact List.perm_insertionSort newerFirst _
  · rw [buildCommentsTree_map_comment]
    exact List.sorted_insertionSort newerFirst _
  · intro t ht
    rw [buildCommentsTree, subtreesList_map, List.mem_flatMap] at ht
    rcases ht with ⟨rt, hrt, htt⟩
    rcases mem_sorted_roots_iff.1 hrt with ⟨hrt_mem, hrt_par⟩
    exact (buildNode_sound hn comments.length rt hrt_mem rt.id 0
      ⟨rt, hrt_mem, rfl, hrt_par⟩ rfl (by omega)).2.2 t htt

/-- A flat list with two roots (created at times 5 and 9) and two replies to
the older root (created at times 6 and 8, in that order in the flat list). -/
def wtreeComments : List Comment :=
  [ ⟨1, 1, "ann", "av1", "first thread", 5, none, none, ⟨[], [], [], [], [], []⟩⟩,
    ⟨2, 1, "ann", "av1", "second thread", 9, none, none, ⟨[], [], [], [], [], []⟩⟩,
    ⟨3, 1, "ann", "av1", "early reply", 6, none, some 1, ⟨[], [], [], [], [], []⟩⟩,
    ⟨4, 1, "ann", "av1", "late reply", 8, none, some 1, ⟨[], [], [], [], [], []⟩⟩ ]

theorem claim3_witness :
    (wtreeComments.map (fun c => c.id)).Nodup
    ∧ (((buildCommentsTree wtreeComments).map CommentTree.comment).Perm
          (wtreeComments.filter (fun c => c.parentId = none))
      ∧ ((buildCommentsTree wtreeComments).map CommentTree.comment).Pairwise
          (fun a b => b.createdAt ≤ a.createdAt)
      ∧ (∀ t, t ∈ subtreesList (buildCommentsTree wtreeComments) →
          t.replies.map CommentTree.comment
            = wtreeComments.filter (fun x => x.parentId = some t.comment.id))) :=
  ⟨by decide, claim3_roots_sorted_replies_in_order wtreeComments (by decide)⟩

/-- A comment that is its own parent: its `parentId` references a comment that
is present in the list (itself). -/
def selfParented : Comment :=
  ⟨7, 1, "bob", "av2", "ouroboros", 3, none, some 7, ⟨[], [], [], [], [], []⟩⟩

/-- Counterexample to claim C8 as stated: this comment's non-null `parentId`
references a comment of the list (itself), so the claim requires it to appear
exactly once in the tree output, yet it appears nowhere (it is not a root, and
the only node that would carry it as a reply is unreachable). -/
theorem claim8_counterexample :
    selfParented.parentId = some selfParented.id
    ∧ selfParented ∈ [selfParented]
    ∧ selfParented ∉ nodesList (buildCommentsTree [selfParented]) := by
  refine ⟨rfl, by simp, ?_⟩
  decide

/-- Claim C8, amended: `buildCommentsTree` is total and never errors; a
comment appears in the tree output (anywhere, as a root or in some replies
sequence) if and only if it is connected to some `parentId = null` root of
the list by a chain of parent links within the list — in particular a comment
whose non-null `parentId` references no comment of the list is silently
dropped, and so is everything below it or on a parent-link cycle — and every
comment that does appear appears exactly once. -/
theorem claim8_amended_appears_iff_rooted (comments : List Comment)
    (hn : (comments.map (fun c => c.id)).Nodup) :
    (nodesList (buildCommentsTree comments)).Nodup
    ∧ (∀ x : Comment, x ∈ nodesList (buildCommentsTree comments) ↔
        (x ∈ comments ∧
          ∃ rt, rt ∈ comments ∧ rt.parentId = none ∧ reach comments rt.id x.id)) := by
  have hsound : ∀ rt, rt ∈ comments → rt.parentId = none →
      (∀ x, x ∈ nodesTree (buildNode comments.length comments rt) ↔
          x ∈ comments ∧ reach comments rt.id x.id)
        ∧ (nodesTree (buildNode comments.length comments rt)).Nodup := by
    intro rt h1 h2
    have h := buildNode_sound hn comments.length rt h1 rt.id 0
      ⟨rt, h1, rfl, h2⟩ rfl (by omega)
    exact ⟨h.1, h.2.1⟩
  constructor
  · rw [buildCommentsTree, nodesList_map, List.nodup_flatMap]
    constructor
    · intro rt hrt
      rcases mem_sorted_roots_iff.1 hrt with ⟨h1, h2⟩
      exact (hsound rt h1 h2).2
    · rw [List.pairwise_iff_forall_sublist]
      intro rt1 rt2 hsub
      have hsorted_nodup :
          (List.insertionSort newerFirst
            (comments.filter (fun x => x.parentId = none))).Nodup :=
        ((List.perm_insertionSort newerFirst _).nodup_iff).2 ((hn.of_map).filter _)
      have h1 := mem_sorted_roots_iff.1 (hsub.subset (by simp) : rt1 ∈ _)
      have h2 := mem_sorted_roots_iff.1 (hsub.subset (by simp) : rt2 ∈ _)
      have hne : rt1 ≠ rt2 := by
        have := hsorted_nodup.sublist hsub
        simp only [List.nodup_cons, List.mem_singleton] at this
        exact this.1
      intro x hx1 hx2
      have hxr1 := ((hsound rt1 h1.1 h1.2).1 x).1 hx1
      have hxr2 := ((hsound rt2 h2.1 h2.2).1 x).1 hx2
      rcases (reach_iff_predN hn).1 hxr1.2 with ⟨k1, hk1⟩
      rcases (reach_iff_predN hn).1 hxr2.2 with ⟨k2, hk2⟩
      have : rt1.id = rt2.id :=
        predN_two_roots hn ⟨rt1, h1.1, rfl, h1.2⟩ ⟨rt2, h2.1, rfl, h2.2⟩ hk1 hk2
      exact hne (List.inj_on_of_nodup_map hn h1.1 h2.1 this)
  · intro x
    rw [buildCommentsTree, nodesList_map, List.mem_flatMap]
    constructor
    · rintro ⟨rt, hrt, hx⟩
      rcases mem_sorted_roots_iff.1 hrt with ⟨h1, h2⟩
      have := ((hsound rt h1 h2).1 x).1 hx
      exact ⟨this.1, rt, h1, h2, this.2⟩
    · rintro ⟨hx_mem, rt, h1, h2, hre⟩
      refine ⟨rt, mem_sorted_roots_iff.2 ⟨h1, h2⟩, ?_⟩
      exact ((hsound rt h1 h2).1 x).2 ⟨hx_mem, hre⟩

/-- A root, a reply to it, an orphan (parent id 99 absent from the list), and
a reply to the orphan. -/
def worphanComments : List Comment :=
  [ ⟨1, 1, "ann", "av1", "root", 4, none, none, ⟨[], [], [], [], [], []⟩⟩,
    ⟨2, 1, "ann", "av1", "reply", 6, none, some 1, ⟨[], [], [], [], [], []⟩⟩,
    ⟨3, 1, "ann", "av1", "orphan", 7, none, some 99, ⟨[], [], [], [], [], []⟩⟩,
    ⟨4, 1, "ann", "av1", "under orphan", 8, none, some 3, ⟨[], [], [], [], [], []⟩⟩ ]

theorem claim8_witness :
    (worphanComments.map (fun c => c.id)).Nodup
    ∧ ((nodesList (buildCommentsTree worphanComments)).Nodup
      ∧ (∀ x : Comment, x ∈ nodesList (buildCommentsTree worphanComments) ↔
          (x ∈ worphanComments ∧
            ∃ rt, rt ∈ worphanComments ∧ rt.parentId = none ∧
              reach worphanComments rt.id x.id))) :=
  ⟨by decide, claim8_amended_appears_iff_rooted worphanComments (by decide)⟩

/-! ### The cascade collection -/

/-- Soundness and termination of the fueled cascade collection on acyclic
parent links: starting at `i` with the ids of the current descent path in `P`
(all of which reach `i`), enough fuel is left to finish, and the resulting set
is the accumulator plus everything reachable from `i`. -/
theorem markDescendants_sound {comments : List Comment}
    (hacyc : acyclicLinks comments) (i0 : Nat) :
    ∀ fuel i acc (P : Finset Nat),
      i ∈ P → (∀ p ∈ P, reach comments p i) →
      (∀ p ∈ P, p = i0 ∨ p ∈ idSet comments) →
      comments.length + 2 ≤ fuel + P.card →
      ∃ S, markDescendantsFuel fuel comments i acc = some S
        ∧ ∀ z, z ∈ S ↔ z ∈ acc ∨ reach comments i z := by
  intro fuel
  induction fuel with
  | zero =>
      intro i acc P _ _ hPsub hfuel
      exfalso
      have hsub : P ⊆ insert i0 (idSet comments) := by
        intro p hp
        rcases hPsub p hp with rfl | h
        · exact Finset.mem_insert_self _ _
        · exact Finset.mem_insert_of_mem h
      have h1 : P.card ≤ (idSet comments).card + 1 :=
        le_trans (Finset.card_le_card hsub) (Finset.card_insert_le _ _)
      have h2 : (idSet comments).card ≤ comments.length := by
        have := List.toFinset_card_le (l := comments.map (fun c => c.id))
        simpa [idSet] using this
      omega
  | succ f ih =>
      intro i acc P hiP hPreach hPsub hfuel
      have inner : ∀ cs : List Comment,
          (∀ y, y ∈ cs → y ∈ comments ∧ y.parentId = some i) →
          ∀ acc' : Finset Nat, ∃ S, cs.foldl
              (fun s c => s.bind (fun a => markDescendantsFuel f comments c.id a))
              (some acc') = some S
            ∧ ∀ z, z ∈ S ↔ z ∈ acc' ∨ ∃ y, y ∈ cs ∧ reach comments y.id z := by
        intro cs
        induction cs with
        | nil =>
            intro _ acc'
            exact ⟨acc', rfl, by simp⟩
        | cons y ys ihcs =>
            intro hcs acc'
            rcases hcs y (by simp) with ⟨hy_mem, hy_par⟩
            have hstep : parentLink comments i y.id := ⟨y, hy_mem, rfl, hy_par⟩
            have hnotP : y.id ∉ P := by
              intro hyP
              exact hacyc y.id (Relation.TransGen.tail' (hPreach y.id hyP) hstep)
            have hP' : ∀ p ∈ insert y.id P, reach comments p y.id := by
              intro p hp
              rcases Finset.mem_insert.1 hp with rfl | hp'
              · exact Relation.ReflTransGen.refl
              · exact (hPreach p hp').tail hstep
            have hP'sub : ∀ p ∈ insert y.id P, p = i0 ∨ p ∈ idSet comments := by
              intro p hp
              rcases Finset.mem_insert.1 hp with rfl | hp'
              · right
                exact List.mem_toFinset.2 (List.mem_map_of_mem (fun c => c.id) hy_mem)
              · exact hPsub p hp'
            have hcard : comments.length + 2 ≤ f + (insert y.id P).card := by
              rw [Finset.card_insert_of_not_mem hnotP]
              omega
            rcases ih y.id acc' (insert y.id P) (Finset.mem_insert_self _ _)
              hP' hP'sub hcard with ⟨S1, h1, hS1⟩
            rcases ihcs (fun y' hy' => hcs y' (by simp [hy'])) S1 with ⟨S, h2, hS⟩
            refine ⟨S, ?_, ?_⟩
            · rw [List.foldl_cons, Option.some_bind, h1]
              exact h2
            · intro z
              rw [hS z]
              constructor
              · rintro (hz | ⟨y', hy', hz⟩)
                · rcases (hS1 z).1 hz with hz' | hz'
                  · exact Or.inl hz'
                  · exact Or.inr ⟨y, by simp, hz'⟩
                · exact Or.inr ⟨y', by simp [hy'], hz⟩
              · rintro (hz | ⟨y', hy', hz⟩)
                · exact Or.inl ((hS1 z).2 (Or.inl hz))
                · rcases List.mem_cons.1 hy' with rfl | hy''
                  · exact Or.inl ((hS1 z).2 (Or.inr hz))
                  · exact Or.inr ⟨y', hy'', hz⟩
      rcases inner (comments.filter (fun x => x.parentId = some i))
          (fun y hy => mem_children_iff.1 hy) (insert i acc) with ⟨S, hS_eq, hS⟩
      refine ⟨S, ?_, ?_⟩
      · rw [markDescendantsFuel]
        exact hS_eq
      · intro z
        rw [hS z]
        constructor
        · rintro (hz | ⟨y, hy, hz⟩)
          · rcases Finset.mem_insert.1 hz with rfl | hz'
            · exact Or.inr Relation.ReflTransGen.refl
            · exact Or.inl hz'
          · rcases mem_children_iff.1 hy with ⟨hy_mem, hy_par⟩
            exact Or.inr (Relation.ReflTransGen.head ⟨y, hy_mem, rfl, hy_par⟩ hz)
        · rintro (hz | hz)
          · exact Or.inl (Finset.mem_insert_of_mem hz)
          · rcases Relation.ReflTransGen.cases_head hz with rfl | ⟨m, hstep, hrest⟩
            · exact Or.inl (Finset.mem_insert_self _ _)
            · rcases hstep with ⟨y, hy_mem, rfl, hy_par⟩
              exact Or.inr ⟨y, mem_children_iff.2 ⟨hy_mem, hy_par⟩, hrest⟩

/-- Two comments that are each other's parent: pathological data the engine
is required to survive. -/
def cycA : Comment := ⟨1, 1, "eve", "av3", "chicken", 0, none, some 2, ⟨[], [], [], [], [], []⟩⟩

/-- See `cycA`. -/
def cycB : Comment := ⟨2, 1, "eve", "av3", "egg", 0, none, some 1, ⟨[], [], [], [], [], []⟩⟩

/-- A flat list whose parent links form a two-cycle. -/
def cyclicComments : List Comment := [cycA, cycB]

/-- The cascade collection never completes on `i`, whatever the stack budget. -/
def markNeverCompletes (comments : List Comment) (i : Nat) : Prop :=
  ∀ fuel acc, markDescendantsFuel fuel comments i acc = none

theorem cyclic_mark_aux : ∀ fuel acc,
    markDescendantsFuel fuel cyclicComments 1 acc = none
    ∧ markDescendantsFuel fuel cyclicComments 2 acc = none := by
  intro fuel
  induction fuel with
  | zero => intro acc; exact ⟨rfl, rfl⟩
  | succ f ih =>
      intro acc
      have hf1 : cyclicComments.filter (fun c => c.parentId = some 1) = [cycB] := rfl
      have hf2 : cyclicComments.filter (fun c => c.parentId = some 2) = [cycA] := rfl
      constructor
      · rw [markDescendantsFuel, hf1, List.foldl_cons, Option.some_bind,
          show cycB.id = 2 from rfl, (ih (insert 1 acc)).2]
        rfl
      · rw [markDescendantsFuel, hf2, List.foldl_cons, Option.some_bind,
          show cycA.id = 1 from rfl, (ih (insert 2 acc)).1]
        rfl

/-- Claim C1 (code bug): the specification requires the cascade traversal to
terminate on every dataset, visiting each id at most once even on cyclic
`parentId` data.  The source's `markDescendants` consults no visited set
before recursing, so on a two-cycle the recursion re-enters the same ids
forever: no amount of fuel makes it complete.  (In Node this manifests as
unbounded recursion blowing the call stack and aborting the request.) -/
theorem claim1_cascade_diverges_on_cycle : markNeverCompletes cyclicComments 1 :=
  fun fuel acc => (cyclic_mark_aux fuel acc).1

/-- A comment recorded as its own parent (creatable through the API, which
never validates `parentId`). -/
def selfLoop : Comment := ⟨1, 1, "eve", "av3", "myself", 0, none, some 1, ⟨[], [], [], [], [], []⟩⟩

/-- A dataset holding only `selfLoop` and its author. -/
def selfLoopDB : DB := ⟨[⟨1, "eve", "eve@x", "hash", "av3"⟩], [selfLoop], 2, 2⟩

/-- Counterexample to claim C2 as stated: the author deletes the self-parented
comment.  The claim promises the resulting flat list is the original minus the
reachable set (here: minus the comment itself, so `[]`) in a single persisted
write; instead the cascade recursion never completes (claim C1), the request
dies, nothing is saved, and the persisted flat list still holds the comment. -/
theorem claim2_counterexample :
    (deleteComment selfLoopDB 1 1).code = 500
    ∧ (deleteComment selfLoopDB 1 1).saves = 0
    ∧ (deleteComment selfLoopDB 1 1).db.comments = [selfLoop]
    ∧ reach selfLoopDB.comments 1 selfLoop.id
    ∧ [selfLoop] ≠ ([] : List Comment) := by
  refine ⟨by decide, by decide, by decide, Relation.ReflTransGen.refl, by decide⟩

/-- Claim C2, amended: restricted to datasets whose parent links are acyclic
(every dataset not corrupted in the claim-C1 sense), a comment author deleting
their comment gets success, exactly one persisted write, and the flat list
keeps its order and loses exactly the target and the comments transitively
reachable from it via `parentId` links — nothing else. -/
theorem claim2_amended_cascade_delete (db : DB) (uid : Nat) (c : Comment)
    (hn : (db.comments.map (fun x => x.id)).Nodup)
    (hacyc : acyclicLinks db.comments)
    (hc : c ∈ db.comments) (hauth : c.userId = uid) :
    (deleteComment db uid c.id).code = 200
    ∧ (deleteComment db uid c.id).saves = 1
    ∧ (deleteComment db uid c.id).db.comments.Sublist db.comments
    ∧ (∀ x : Comment, x ∈ (deleteComment db uid c.id).db.comments ↔
        (x ∈ db.comments ∧ ¬ reach db.comments c.id x.id)) := by
  have hfind : db.comments.find? (fun x => x.id = c.id) = some c :=
    find?_id_eq_self hn hc
  have hcard : db.comments.length + 2
      ≤ (db.comments.length + 1) + ({c.id} : Finset Nat).card := by
    simp
  rcases markDescendants_sound hacyc c.id (db.comments.length + 1) c.id ∅ {c.id}
      (Finset.mem_singleton_self _)
      (fun p hp => by rw [Finset.mem_singleton.1 hp]; exact Relation.ReflTransGen.refl)
      (fun p hp => Or.inl (Finset.mem_singleton.1 hp)) hcard with ⟨S, hS_eq, hS⟩
  have hres : deleteComment db uid c.id =
      ⟨{ db with comments := db.comments.filter (fun x => ¬ x.id ∈ S) }, 200, none,
        [buildCommentsTree (db.comments.filter (fun x => ¬ x.id ∈ S))], 1⟩ := by
    simp only [deleteComment, hfind, hauth, ne_eq, not_true_eq_false, if_false, hS_eq]
  rw [hres]
  refine ⟨rfl, rfl, List.filter_sublist _, ?_⟩
  intro x
  simp only [List.mem_filter, decide_not, Bool.not_eq_true', decide_eq_false_iff_not]
  constructor
  · rintro ⟨hx_mem, hx_not⟩
    exact ⟨hx_mem, fun hre => hx_not ((hS x.id).2 (Or.inr hre))⟩
  · rintro ⟨hx_mem, hre⟩
    refine ⟨hx_mem, fun hz => ?_⟩
    rcases (hS x.id).1 hz with h | h
    · cases h
    · exact hre h

/-- If every stored parent id is smaller than its comment's id, the parent
links are acyclic.  (Used to discharge the acyclicity hypothesis on concrete
data.) -/
theorem acyclicLinks_of_parent_lt {comments : List Comment}
    (h : ∀ c, c ∈ comments → ∀ p, c.parentId = some p → p < c.id) :
    acyclicLinks comments := by
  intro i hcyc
  have hlt : ∀ a b, Relation.TransGen (parentLink comments) a b → a < b := by
    intro a b hab
    induction hab with
    | single hstep =>
        rcases hstep with ⟨c, hc, rfl, hp⟩
        exact h c hc _ hp
    | tail _ hstep ihab =>
        rcases hstep with ⟨c, hc, rfl, hp⟩
        exact lt_trans ihab (h c hc _ hp)
  exact lt_irrefl i (hlt i i hcyc)

/-- A chain root, child (id 2), grandchild (id 3), plus an unrelated second
root (id 4), all by user 1. -/
def wdeleteDB : DB :=
  ⟨[⟨1, "ann", "ann@x", "hash", "av1"⟩],
    [ ⟨1, 1, "ann", "av1", "root", 1, none, none, ⟨[], [], [], [], [], []⟩⟩,
      ⟨2, 1, "ann", "av1", "child", 2, none, some 1, ⟨[], [], [], [], [], []⟩⟩,
      ⟨3, 1, "ann", "av1", "grandchild", 3, none, some 2, ⟨[], [], [], [], [], []⟩⟩,
      ⟨4, 1, "ann", "av1", "other root", 4, none, none, ⟨[], [], [], [], [], []⟩⟩ ],
    5, 2⟩

/-- The root comment of `wdeleteDB`. -/
def wdeleteTarget : Comment :=
  ⟨1, 1, "ann", "av1", "root", 1, none, none, ⟨[], [], [], [], [], []⟩⟩

theorem claim2_witness :
    ((wdeleteDB.comments.map (fun x => x.id)).Nodup
      ∧ acyclicLinks wdeleteDB.comments
      ∧ wdeleteTarget ∈ wdeleteDB.comments
      ∧ wdeleteTarget.userId = 1)
    ∧ ((deleteComment wdeleteDB 1 wdeleteTarget.id).code = 200
      ∧ (deleteComment wdeleteDB 1 wdeleteTarget.id).saves = 1
      ∧ (deleteComment wdeleteDB 1 wdeleteTarget.id).db.comments.Sublist wdeleteDB.comments
      ∧ (∀ x : Comment,
          x ∈ (deleteComment wdeleteDB 1 wdeleteTarget.id).db.comments ↔
            (x ∈ wdeleteDB.comments ∧
              ¬ reach wdeleteDB.comments wdeleteTarget.id x.id))) :=
  ⟨⟨by decide, acyclicLinks_of_parent_lt (by decide), by decide, by decide⟩,
    claim2_amended_cascade_delete wdeleteDB 1 wdeleteTarget (by decide)
      (acyclicLinks_of_parent_lt (by decide)) (by decide) (by decide)⟩

/-! ### Reactions -/

theorem get_set_same (r : Reactions) (k : ReactionKind) (a : List Nat) :
    (r.set k a).get k = a := by
  cases k <;> rfl

theorem get_set_other (r : Reactions) {k k' : ReactionKind} (hk : k' ≠ k) (a : List Nat) :
    (r.set k a).get k' = r.get k' := by
  cases k <;> cases k' <;> first | rfl | exact absurd rfl hk

theorem mem_toggleList {arr : List Nat} {u : Nat} (hnd : arr.Nodup) :
    u ∈ toggleList arr u ↔ u ∉ arr := by
  by_cases hu : u ∈ arr
  · simp only [toggleList, if_pos hu]
    constructor
    · intro h
      exact absurd ((hnd.mem_erase_iff).1 h).1 (by simp)
    · intro h
      exact absurd hu h
  · simp [toggleList, if_neg hu, hu]

theorem toggleList_roundtrip {arr : List Nat} {u : Nat} (hnd : arr.Nodup) :
    (toggleList (toggleList arr u) u).Perm arr := by
  by_cases hu : u ∈ arr
  · have h1 : toggleList arr u = arr.erase u := if_pos hu
    have h2 : u ∉ arr.erase u := fun h => absurd ((hnd.mem_erase_iff).1 h).1 (by simp)
    rw [h1, toggleList, if_neg h2]
    exact (List.perm_append_singleton u _).trans (List.perm_cons_erase hu).symm
  · have h1 : toggleList arr u = arr ++ [u] := if_neg hu
    have h2 : u ∈ arr ++ [u] := by simp
    rw [h1, toggleList, if_pos h2, List.erase_append_right _ hu, List.erase_cons_head,
      List.append_nil]

/-- Claim C4: React has toggle semantics.  On reaction arrays without
duplicates (the invariant the code maintains, since it only appends an id that
is absent): toggling puts the caller in the set exactly when they were not in
it; toggling the same kind twice restores the comment's original reaction
state (each kind's set of reactors is unchanged — stated as a permutation of
the stored arrays); and reacting with one kind and then with a different kind,
starting outside both sets, leaves the user present in both sets
simultaneously. -/
theorem claim4_reaction_toggle (r : Reactions) (k : ReactionKind) (u : Nat)
    (hnd : (r.get k).Nodup) :
    (u ∈ (toggleReaction r k u).get k ↔ u ∉ r.get k)
    ∧ (∀ k', ((toggleReaction (toggleReaction r k u) k u).get k').Perm (r.get k'))
    ∧ (∀ k2, k2 ≠ k → u ∉ r.get k → u ∉ r.get k2 →
        u ∈ (toggleReaction (toggleReaction r k u) k2 u).get k
        ∧ u ∈ (toggleReaction (toggleReaction r k u) k2 u).get k2) := by
  refine ⟨?_, ?_, ?_⟩
  · rw [toggleReaction, get_set_same]
    exact mem_toggleList hnd
  · intro k'
    by_cases hk : k' = k
    · subst hk
      simp only [toggleReaction, get_set_same]
      exact toggleList_roundtrip hnd
    · simp only [toggleReaction, get_set_same, get_set_other _ hk]
      exact List.Perm.refl _
  · intro k2 hk2 hu1 hu2
    have hkk : k ≠ k2 := fun h => hk2 h.symm
    constructor
    · rw [toggleReaction, get_set_other _ hkk, toggleReaction, get_set_same, toggleList,
        if_neg hu1]
      simp
    · rw [toggleReaction, get_set_same, toggleReaction, get_set_other _ hk2, toggleList,
        if_neg hu2]
      simp

/-- Reaction state with user 3 under `like` and nobody else. -/
def wreactions : Reactions := ⟨[3], [], [], [], [], []⟩

theorem claim4_witness :
    (wreactions.get ReactionKind.like).Nodup
    ∧ ((5 ∈ (toggleReaction wreactions ReactionKind.like 5).get ReactionKind.like ↔
          5 ∉ wreactions.get ReactionKind.like)
      ∧ (∀ k', ((toggleReaction (toggleReaction wreactions ReactionKind.like 5)
            ReactionKind.like 5).get k').Perm (wreactions.get k'))
      ∧ (∀ k2, k2 ≠ ReactionKind.like →
          5 ∉ wreactions.get ReactionKind.like → 5 ∉ wreactions.get k2 →
          5 ∈ (toggleReaction (toggleReaction wreactions ReactionKind.like 5) k2 5).get
              ReactionKind.like
          ∧ 5 ∈ (toggleReaction (toggleReaction wreactions ReactionKind.like 5) k2 5).get k2)) :=
  ⟨by decide, claim4_reaction_toggle wreactions ReactionKind.like 5 (by decide)⟩

/-! ### Edit: ownership and frame -/

theorem updateFirst_split {α : Type} {p : α → Bool} {f : α → α} {l : List α} {c : α}
    (hfind : l.find? p = some c) :
    ∃ l1 l2, l = l1 ++ c :: l2 ∧ updateFirst p f l = l1 ++ f c :: l2 := by
  induction l with
  | nil => cases hfind
  | cons x xs ih =>
      by_cases hx : p x
      · rw [List.find?_cons_of_pos _ hx] at hfind
        cases hfind
        exact ⟨[], xs, rfl, by simp [updateFirst, hx]⟩
      · rw [List.find?_cons_of_neg _ (by simp [hx])] at hfind
        rcases ih hfind with ⟨l1, l2, h1, h2⟩
        exact ⟨x :: l1, l2, by simp [h1], by simp [updateFirst, hx, h2]⟩

/-- A dataset with two users; user 1 owns the only comment (id 1). -/
def wownDB : DB :=
  ⟨[⟨1, "ann", "ann@x", "hash", "av1"⟩, ⟨2, "bob", "bob@x", "hash", "av2"⟩],
    [⟨1, 1, "ann", "av1", "mine", 1, none, none, ⟨[], [], [], [], [], []⟩⟩],
    2, 3⟩

/-- Counterexample to claim C6 as stated: user 2 (not the author) calls Edit
on user 1's comment with empty content.  The claim promises `ForbiddenError`
(403) for every such call, but the source checks the content before ownership
and answers `ValidationError` (400).  The dataset is unchanged either way. -/
theorem claim6_counterexample :
    (∃ c, c ∈ wownDB.comments ∧ c.id = 1 ∧ c.userId ≠ 2)
    ∧ (editComment wownDB 2 1 "" 5).code = 400
    ∧ (editComment wownDB 2 1 "" 5).code ≠ 403
    ∧ (editComment wownDB 2 1 "" 5).db = wownDB := by
  refine ⟨⟨⟨1, 1, "ann", "av1", "mine", 1, none, none, ⟨[], [], [], [], [], []⟩⟩,
    by decide, by decide, by decide⟩, by decide, by decide, by decide⟩

/-- Claim C6, amended: for every comment C and every authenticated user whose
id differs from C's author, Delete(C.id) always fails with `ForbiddenError`,
and Edit(C.id, newContent) fails with `ForbiddenError` provided the new
content is not empty after trimming (an empty body is rejected first, with
`ValidationError`); in every such case the dataset is left unchanged and
nothing is persisted. -/
theorem claim6_amended_ownership (db : DB) (uid : Nat) (c : Comment)
    (content : String) (now : Nat)
    (hn : (db.comments.map (fun x => x.id)).Nodup)
    (hc : c ∈ db.comments) (hne : c.userId ≠ uid)
    (hcontent : jsTrim content ≠ "") :
    (editComment db uid c.id content now).code = 403
    ∧ (editComment db uid c.id content now).db = db
    ∧ (editComment db uid c.id content now).saves = 0
    ∧ (deleteComment db uid c.id).code = 403
    ∧ (deleteComment db uid c.id).db = db
    ∧ (deleteComment db uid c.id).saves = 0 := by
  have hfind : db.comments.find? (fun x => x.id = c.id) = some c :=
    find?_id_eq_self hn hc
  have hedit : editComment db uid c.id content now = ⟨db, 403, none, [], 0⟩ := by
    rw [editComment, if_neg hcontent, hfind]
    simp only [ne_eq, hne, not_false_eq_true, if_true]
  have hdel : deleteComment db uid c.id = ⟨db, 403, none, [], 0⟩ := by
    rw [deleteComment, hfind]
    simp only [ne_eq, hne, not_false_eq_true, if_true]
  rw [hedit, hdel]
  exact ⟨rfl, rfl, rfl, rfl, rfl, rfl⟩

/-- The only comment of `wownDB`. -/
def wownComment : Comment := ⟨1, 1, "ann", "av1", "mine", 1, none, none, ⟨[], [], [], [], [], []⟩⟩

theorem claim6_witness :
    ((wownDB.comments.map (fun x => x.id)).Nodup
      ∧ wownComment ∈ wownDB.comments
      ∧ wownComment.userId ≠ 2
      ∧ jsTrim "hacked" ≠ "")
    ∧ ((editComment wownDB 2 wownComment.id "hacked" 5).code = 403
      ∧ (editComment wownDB 2 wownComment.id "hacked" 5).db = wownDB
      ∧ (editComment wownDB 2 wownComment.id "hacked" 5).saves = 0
      ∧ (deleteComment wownDB 2 wownComment.id).code = 403
      ∧ (deleteComment wownDB 2 wownComment.id).db = wownDB
      ∧ (deleteComment wownDB 2 wownComment.id).saves = 0) :=
  ⟨⟨by decide, by decide, by decide, by decide⟩,
    claim6_amended_ownership wownDB 2 wownComment "hacked" 5 (by decide) (by decide)
      (by decide) (by decide)⟩

/-- Claim C7: a successful Edit by the author replaces the target comment's
content by the trimmed new text and stamps `updatedAt` to now, leaving `id`,
`userId`, `userName`, `avatar`, `createdAt`, `parentId` and `reactions`
untouched (the structure update below mentions only `content` and
`updatedAt`), and leaving every other comment — before and after it in the
flat list — exactly as it was. -/
theorem claim7_edit_frame (db : DB) (uid : Nat) (c : Comment) (content : String) (now : Nat)
    (hn : (db.comments.map (fun x => x.id)).Nodup)
    (hc : c ∈ db.comments) (hauth : c.userId = uid)
    (hcontent : jsTrim content ≠ "") :
    (editComment db uid c.id content now).code = 200
    ∧ (editComment db uid c.id content now).comment
        = some { c with content := jsTrim content, updatedAt := some now }
    ∧ ∃ l1 l2, db.comments = l1 ++ c :: l2
        ∧ (editComment db uid c.id content now).db.comments
            = l1 ++ ({ c with content := jsTrim content, updatedAt := some now } : Comment) :: l2
    ∧ (editComment db uid c.id content now).db.users = db.users
    ∧ (editComment db uid c.id content now).db.nextCommentId = db.nextCommentId := by
  have hfind : db.comments.find? (fun x => x.id = c.id) = some c :=
    find?_id_eq_self hn hc
  have hres : editComment db uid c.id content now =
      ⟨{ db with
          comments :=
            updateFirst (fun x => x.id = c.id)
              (fun x => { x with content := jsTrim content, updatedAt := some now })
              db.comments },
        200, some { c with content := jsTrim content, updatedAt := some now },
        [buildCommentsTree (updateFirst (fun x => x.id = c.id)
            (fun x => { x with content := jsTrim content, updatedAt := some now })
            db.comments)], 1⟩ := by
    rw [editComment, if_neg hcontent, hfind]
    simp only [ne_eq, hauth, not_true_eq_false, if_false]
  rw [hres]
  rcases updateFirst_split
      (f := fun x => { x with content := jsTrim content, updatedAt := some now }) hfind
    with ⟨l1, l2, h1, h2⟩
  exact ⟨rfl, rfl, l1, l2, h1, h2, rfl, rfl⟩

theorem claim7_witness :
    ((wdeleteDB.comments.map (fun x => x.id)).Nodup
      ∧ wdeleteTarget ∈ wdeleteDB.comments
      ∧ wdeleteTarget.userId = 1
      ∧ jsTrim " fixed text " ≠ "")
    ∧ ((editComment wdeleteDB 1 wdeleteTarget.id " fixed text " 9).code = 200
      ∧ (editComment wdeleteDB 1 wdeleteTarget.id " fixed text " 9).comment
          = some { wdeleteTarget with content := jsTrim " fixed text ", updatedAt := some 9 }
      ∧ ∃ l1 l2, wdeleteDB.comments = l1 ++ wdeleteTarget :: l2
          ∧ (editComment wdeleteDB 1 wdeleteTarget.id " fixed text " 9).db.comments
              = l1 ++ ({ wdeleteTarget with
                            content := jsTrim " fixed text ", updatedAt := some 9 } :
                          Comment) :: l2
      ∧ (editComment wdeleteDB 1 wdeleteTarget.id " fixed text " 9).db.users = wdeleteDB.users
      ∧ (editComment wdeleteDB 1 wdeleteTarget.id " fixed text " 9).db.nextCommentId
          = wdeleteDB.nextCommentId) :=
  ⟨⟨by decide, by decide, by decide, by decide⟩,
    claim7_edit_frame wdeleteDB 1 wdeleteTarget " fixed text " 9 (by decide) (by decide)
      (by decide) (by decide)⟩

/-! ### Broadcast -/

theorem createComment_success {db : DB} {uid : Nat} {content : String}
    {parentId : Option Nat} {now : Nat}
    (h : (createComment db uid content parentId now).code = 201) :
    (createComment db uid content parentId now).emits
      = [buildCommentsTree (createComment db uid content parentId now).db.comments]
    ∧ (createComment db uid content parentId now).saves = 1 := by
  by_cases hct : jsTrim content = ""
  · simp [createComment, hct] at h
  · cases hfind : db.users.find? (fun u => u.id = uid) with
    | none => simp [createComment, hct, hfind] at h
    | some user => simp [createComment, hct, hfind]

theorem editComment_success {db : DB} {uid cid : Nat} {content : String} {now : Nat}
    (h : (editComment db uid cid content now).code = 200) :
    (editComment db uid cid content now).emits
      = [buildCommentsTree (editComment db uid cid content now).db.comments]
    ∧ (editComment db uid cid content now).saves = 1 := by
  by_cases hct : jsTrim content = ""
  · simp [editComment, hct] at h
  · cases hfind : db.comments.find? (fun c => c.id = cid) with
    | none => simp [editComment, hct, hfind] at h
    | some c =>
        by_cases hown : c.userId = uid
        · simp [editComment, hct, hfind, hown]
        · simp [editComment, hct, hfind, hown] at h

theorem deleteComment_success {db : DB} {uid cid : Nat}
    (h : (deleteComment db uid cid).code = 200) :
    (deleteComment db uid cid).emits
      = [buildCommentsTree (deleteComment db uid cid).db.comments]
    ∧ (deleteComment db uid cid).saves = 1 := by
  cases hfind : db.comments.find? (fun c => c.id = cid) with
  | none => simp [deleteComment, hfind] at h
  | some c =>
      by_cases hown : c.userId = uid
      · cases hmark : markDescendantsFuel (db.comments.length + 1) db.comments cid ∅ with
        | none => simp [deleteComment, hfind, hown, hmark] at h
        | some S => simp [deleteComment, hfind, hown, hmark]
      · simp [deleteComment, hfind, hown] at h

theorem reactComment_success {db : DB} {uid cid : Nat} {reaction : String}
    (h : (reactComment db uid cid reaction).code = 200) :
    (reactComment db uid cid reaction).emits
      = [buildCommentsTree (reactComment db uid cid reaction).db.comments]
    ∧ (reactComment db uid cid reaction).saves = 1 := by
  cases hk : parseReaction reaction with
  | none => simp [reactComment, hk] at h
  | some k =>
      cases hfind : db.comments.find? (fun c => c.id = cid) with
      | none => simp [reactComment, hk, hfind] at h
      | some c => simp [reactComment, hk, hfind]

/-- Claim C9: every successful mutation — Create, Edit, Delete, React — emits
exactly one `comments:update` event, whose payload is the tree rebuilt from
the just-persisted flat list (one `saveDB` call), and the broadcast delivers
that payload to every currently connected viewer, the requester included (any
`v` among the viewers receives it — no self-exclusion). -/
theorem claim9_broadcast_per_mutation
    (db1 db2 db3 db4 : DB) (u1 u2 u3 u4 cid2 cid3 cid4 : Nat)
    (s1 s2 : String) (p1 : Option Nat) (t1 t2 : Nat) (rk : String)
    (viewers : List Nat) (v : Nat)
    (h1 : (createComment db1 u1 s1 p1 t1).code = 201)
    (h2 : (editComment db2 u2 cid2 s2 t2).code = 200)
    (h3 : (deleteComment db3 u3 cid3).code = 200)
    (h4 : (reactComment db4 u4 cid4 rk).code = 200)
    (hv : v ∈ viewers) :
    ((createComment db1 u1 s1 p1 t1).emits
        = [buildCommentsTree (createComment db1 u1 s1 p1 t1).db.comments]
      ∧ (createComment db1 u1 s1 p1 t1).saves = 1)
    ∧ ((editComment db2 u2 cid2 s2 t2).emits
        = [buildCommentsTree (editComment db2 u2 cid2 s2 t2).db.comments]
      ∧ (editComment db2 u2 cid2 s2 t2).saves = 1)
    ∧ ((deleteComment db3 u3 cid3).emits
        = [buildCommentsTree (deleteComment db3 u3 cid3).db.comments]
      ∧ (deleteComment db3 u3 cid3).saves = 1)
    ∧ ((reactComment db4 u4 cid4 rk).emits
        = [buildCommentsTree (reactComment db4 u4 cid4 rk).db.comments]
      ∧ (reactComment db4 u4 cid4 rk).saves = 1)
    ∧ (v, (createComment db1 u1 s1 p1 t1).emits)
        ∈ broadcast viewers (createComment db1 u1 s1 p1 t1).emits :=
  ⟨createComment_success h1, editComment_success h2, deleteComment_success h3,
    reactComment_success h4, List.mem_map.2 ⟨v, hv, rfl⟩⟩

theorem claim9_witness :
    ((createComment wownDB 1 "hello" none 7).code = 201
      ∧ (editComment wownDB 1 1 "better" 7).code = 200
      ∧ (deleteComment wownDB 1 1).code = 200
      ∧ (reactComment wownDB 1 1 "like").code = 200
      ∧ 10 ∈ [10, 20])
    ∧ (((createComment wownDB 1 "hello" none 7).emits
          = [buildCommentsTree (createComment wownDB 1 "hello" none 7).db.comments]
        ∧ (createComment wownDB 1 "hello" none 7).saves = 1)
      ∧ ((editComment wownDB 1 1 "better" 7).emits
          = [buildCommentsTree (editComment wownDB 1 1 "better" 7).db.comments]
        ∧ (editComment wownDB 1 1 "better" 7).saves = 1)
      ∧ ((deleteComment wownDB 1 1).emits
          = [buildCommentsTree (deleteComment wownDB 1 1).db.comments]
        ∧ (deleteComment wownDB 1 1).saves = 1)
      ∧ ((reactComment wownDB 1 1 "like").emits
          = [buildCommentsTree (reactComment wownDB 1 1 "like").db.comments]
        ∧ (reactComment wownDB 1 1 "like").saves = 1)
      ∧ (10, (createComment wownDB 1 "hello" none 7).emits)
          ∈ broadcast [10, 20] (createComment wownDB 1 "hello" none 7).emits) :=
  ⟨⟨by decide, by decide, by decide, by decide, by decide⟩,
    claim9_broadcast_per_mutation wownDB wownDB wownDB wownDB 1 1 1 1 1 1 1
      "hello" "better" none 7 7 "like" [10, 20] 10
      (by decide) (by decide) (by decide) (by decide) (by decide)⟩

/-! ### Falsy parentId normalization -/

/-- The request-body `parentId` values the claim enumerates: absent, `null`,
`0`, the empty string, and `false`. -/
def falsyParentValues : List (Option JVal) :=
  [none, some JVal.jnull, some (JVal.jnum 0), some (JVal.jstr ""), some (JVal.jbool false)]

/-- Claim C10: whenever the request body's `parentId` is falsy — absent,
`null`, `0`, the empty string, or `false` — the create handler stores
`parentId` as `null` (so such a request is indistinguishable from one with no
`parentId` at all), and the created comment always surfaces as a root of the
rebuilt tree. -/
theorem claim10_falsy_parent_becomes_root (raw : Option JVal)
    (hraw : raw ∈ falsyParentValues)
    (db : DB) (uid : Nat) (content : String) (now : Nat)
    (hcode : (createComment db uid content none now).code = 201) :
    storedParentId raw = JVal.jnull
    ∧ storedParentId raw = storedParentId none
    ∧ (∃ nc, (createComment db uid content none now).comment = some nc
        ∧ nc.parentId = none
        ∧ nc ∈ ((buildCommentsTree (createComment db uid content none now).db.comments).map
            CommentTree.comment)) := by
  have hstored : storedParentId raw = JVal.jnull := by
    simp only [falsyParentValues, List.mem_cons, List.mem_singleton] at hraw
    rcases hraw with rfl | rfl | rfl | rfl | rfl | h
    · rfl
    · rfl
    · rfl
    · rfl
    · rfl
    · cases h
  refine ⟨hstored, by rw [hstored]; rfl, ?_⟩
  by_cases hct : jsTrim content = ""
  · simp [createComment, hct] at hcode
  · cases hfind : db.users.find? (fun u => u.id = uid) with
    | none => simp [createComment, hct, hfind] at hcode
    | some user =>
        refine ⟨⟨db.nextCommentId, user.id, user.name, user.avatar, jsTrim content,
          now, none, none, ⟨[], [], [], [], [], []⟩⟩, ?_, rfl, ?_⟩
        · simp [createComment, hct, hfind]
        · rw [show (createComment db uid content none now).db.comments
              = db.comments ++ [⟨db.nextCommentId, user.id, user.name, user.avatar,
                  jsTrim content, now, none, none, ⟨[], [], [], [], [], []⟩⟩] from by
            simp [createComment, hct, hfind]]
          rw [buildCommentsTree_map_comment]
          exact mem_sorted_roots_iff.2 ⟨by simp, rfl⟩

theorem claim10_witness :
    (some (JVal.jnum 0) ∈ falsyParentValues
      ∧ (createComment wownDB 1 "fresh" none 3).code = 201)
    ∧ (storedParentId (some (JVal.jnum 0)) = JVal.jnull
      ∧ storedParentId (some (JVal.jnum 0)) = storedParentId none
      ∧ (∃ nc, (createComment wownDB 1 "fresh" none 3).comment = some nc
          ∧ nc.parentId = none
          ∧ nc ∈ ((buildCommentsTree (createComment wownDB 1 "fresh" none 3).db.comments).map
              CommentTree.comment))) :=
  ⟨⟨by decide, by decide⟩,
    claim10_falsy_parent_becomes_root (some (JVal.jnum 0)) (by decide) wownDB 1 "fresh" 3
      (by decide)⟩

/-! ### Id monotonicity across a dataset lifetime -/

theorem mem_updateFirst {α : Type} {p : α → Bool} {f : α → α} {l : List α} {x : α}
    (hx : x ∈ updateFirst p f l) : x ∈ l ∨ ∃ y, y ∈ l ∧ x = f y := by
  induction l with
  | nil => cases hx
  | cons a as ih =>
      by_cases ha : p a
      · rw [updateFirst, if_pos ha] at hx
        rcases List.mem_cons.1 hx with rfl | h
        · exact Or.inr ⟨a, by simp, rfl⟩
        · exact Or.inl (by simp [h])
      · rw [updateFirst, if_neg ha] at hx
        rcases List.mem_cons.1 hx with rfl | h
        · exact Or.inl (by simp)
        · rcases ih h with h' | ⟨y, hy, rfl⟩
          · exact Or.inl (by simp [h'])
          · exact Or.inr ⟨y, by simp [hy], rfl⟩

/-- All stored comment ids are below the `nextCommentId` counter — the
freshness invariant of the dataset (it holds of the initial dataset
`{comments: [], nextCommentId: 1}` and is preserved by every operation). -/
def idInv (db : DB) : Prop := ∀ c, c ∈ db.comments → c.id < db.nextCommentId

theorem applyOp_spec (db : DB) (op : Op) (hinv : idInv db) :
    idInv (applyOp db op).1
    ∧ db.nextCommentId ≤ (applyOp db op).1.nextCommentId
    ∧ (∀ i, (applyOp db op).2 = some i →
        i = db.nextCommentId ∧ (applyOp db op).1.nextCommentId = db.nextCommentId + 1) := by
  cases op with
  | create uid content parentId now =>
      by_cases hct : jsTrim content = ""
      · refine ⟨?_, ?_, ?_⟩ <;> simp [applyOp, createComment, hct]
        exact hinv
      · cases hfind : db.users.find? (fun u => u.id = uid) with
        | none =>
            refine ⟨?_, ?_, ?_⟩ <;> simp [applyOp, createComment, hct, hfind]
            exact hinv
        | some user =>
            refine ⟨?_, ?_, ?_⟩ <;> simp [applyOp, createComment, hct, hfind]
            intro c hc
            rcases List.mem_append.1 hc with hc | hc
            · exact lt_trans (hinv c hc) (Nat.lt_succ_self _)
            · exact lt_of_le_of_lt (le_of_eq (by rw [List.mem_singleton.1 hc]))
                (Nat.lt_succ_self _)
  | edit uid cid content now =>
      have hdb : (applyOp db (Op.edit uid cid content now)).1.nextCommentId = db.nextCommentId
          ∧ idInv (applyOp db (Op.edit uid cid content now)).1 := by
        by_cases hct : jsTrim content = ""
        · constructor <;> simp [applyOp, editComment, hct]
          exact hinv
        · cases hfind : db.comments.find? (fun c => c.id = cid) with
          | none =>
              constructor <;> simp [applyOp, editComment, hct, hfind]
              exact hinv
          | some c =>
              by_cases hown : c.userId = uid
              · constructor <;> simp [applyOp, editComment, hct, hfind, hown]
                intro x hx
                rcases mem_updateFirst hx with h | ⟨y, hy, rfl⟩
                · exact hinv x h
                · exact hinv y hy
              · constructor <;> simp [applyOp, editComment, hct, hfind, hown]
                exact hinv
      exact ⟨hdb.2, le_of_eq hdb.1.symm, fun i hi => by simp [applyOp] at hi⟩
  | delete uid cid =>
      have hdb : (applyOp db (Op.delete uid cid)).1.nextCommentId = db.nextCommentId
          ∧ idInv (applyOp db (Op.delete uid cid)).1 := by
        cases hfind : db.comments.find? (fun c => c.id = cid) with
        | none =>
            constructor <;> simp [applyOp, deleteComment, hfind]
            exact hinv
        | some c =>
            by_cases hown : c.userId = uid
            · cases hmark : markDescendantsFuel (db.comments.length + 1) db.comments cid ∅ with
              | none =>
                  constructor <;> simp [applyOp, deleteComment, hfind, hown, hmark]
                  exact hinv
              | some S =>
                  constructor <;> simp [applyOp, deleteComment, hfind, hown, hmark]
                  intro x hx
                  exact hinv x (List.mem_filter.1 hx).1
            · constructor <;> simp [applyOp, deleteComment, hfind, hown]
              exact hinv
      exact ⟨hdb.2, le_of_eq hdb.1.symm, fun i hi => by simp [applyOp] at hi⟩
  | react uid cid reaction =>
      have hdb : (applyOp db (Op.react uid cid reaction)).1.nextCommentId = db.nextCommentId
          ∧ idInv (applyOp db (Op.react uid cid reaction)).1 := by
        cases hk : parseReaction reaction with
        | none =>
            constructor <;> simp [applyOp, reactComment, hk]
            exact hinv
        | some k =>
            cases hfind : db.comments.find? (fun c => c.id = cid) with
            | none =>
                constructor <;> simp [applyOp, reactComment, hk, hfind]
                exact hinv
            | some c =>
                constructor <;> simp [applyOp, reactComment, hk, hfind]
                intro x hx
                rcases mem_updateFirst hx with h | ⟨y, hy, rfl⟩
                · exact hinv x h
                · exact hinv y hy
      exact ⟨hdb.2, le_of_eq hdb.1.symm, fun i hi => by simp [applyOp] at hi⟩

theorem runOps_spec : ∀ (ops : List Op) (db : DB), idInv db →
    idInv (runOps db ops).1
    ∧ db.nextCommentId ≤ (runOps db ops).1.nextCommentId
    ∧ List.Chain' (· < ·) (runOps db ops).2
    ∧ (∀ i, i ∈ (runOps db ops).2 →
        db.nextCommentId ≤ i ∧ i < (runOps db ops).1.nextCommentId) := by
  intro ops
  induction ops with
  | nil =>
      intro db hinv
      exact ⟨hinv, le_refl _, List.chain'_nil, fun i hi => by cases hi⟩
  | cons op rest ih =>
      intro db hinv
      rcases applyOp_spec db op hinv with ⟨hinv1, hmono1, hassign⟩
      rcases ih (applyOp db op).1 hinv1 with ⟨hinvf, hmonof, hchain, hbounds⟩
      have hrun : runOps db (op :: rest)
          = ((runOps (applyOp db op).1 rest).1,
              (applyOp db op).2.toList ++ (runOps (applyOp db op).1 rest).2) := rfl
      rw [hrun]
      refine ⟨hinvf, le_trans hmono1 hmonof, ?_, ?_⟩
      · cases ha : (applyOp db op).2 with
        | none => simpa using hchain
        | some i =>
            rcases hassign i ha with ⟨rfl, hbump⟩
            simp only [Option.toList_some, List.singleton_append]
            rw [List.chain'_cons']
            refine ⟨?_, hchain⟩
            intro j hj
            have hjmem : j ∈ (runOps (applyOp db op).1 rest).2 :=
              List.mem_of_mem_head? hj
            have := (hbounds j hjmem).1
            omega
      · intro i hi
        rw [List.mem_append] at hi
        rcases hi with hi | hi
        · cases ha : (applyOp db op).2 with
          | none => rw [ha] at hi; cases hi
          | some j =>
              rw [ha] at hi
              simp only [Option.toList_some, List.mem_singleton] at hi
              subst hi
              rcases hassign i ha with ⟨rfl, hbump⟩
              constructor
              · exact le_refl _
              · calc db.nextCommentId < (applyOp db op).1.nextCommentId := by omega
                  _ ≤ (runOps (applyOp db op).1 rest).1.nextCommentId := hmonof
        · rcases hbounds i hi with ⟨h1, h2⟩
          exact ⟨le_trans hmono1 h1, h2⟩

/-- Claim C5: across any run of requests against a dataset satisfying the
freshness invariant (all stored ids below the counter — true of the initial
empty dataset and maintained forever), the comment ids assigned by the
successful Creates are strictly increasing in order of execution, and no
assigned id ever coincides with the id of any comment present before the run
— deletions never make the counter go back, so ids are never reused. -/
theorem claim5_create_ids_strictly_increase (db : DB) (ops : List Op)
    (hinv : ∀ c, c ∈ db.comments → c.id < db.nextCommentId) :
    ((runOps db ops).2).Pairwise (· < ·)
    ∧ (∀ i, i ∈ (runOps db ops).2 → ∀ c, c ∈ db.comments → c.id < i) := by
  rcases runOps_spec ops db hinv with ⟨_, _, hchain, hbounds⟩
  constructor
  · exact List.chain'_iff_pairwise.1 hchain
  · intro i hi c hc
    exact lt_of_lt_of_le (hinv c hc) (hbounds i hi).1

/-- A lifetime of requests on the fresh dataset: ann creates a root, a reply,
deletes the whole thread (cascade removes both), then creates again; the
fourth request fails (empty content) and assigns nothing. -/
def wlifeOps : List Op :=
  [Op.create 1 "first" none 1,
    Op.create 1 "reply" (some 1) 2,
    Op.delete 1 1,
    Op.create 1 "   " none 3,
    Op.create 1 "again" none 4]

/-- The initial dataset of `loadDB`, plus one registered user. -/
def wlifeDB : DB := ⟨[⟨1, "ann", "ann@x", "hash", "av1"⟩], [], 1, 1⟩

theorem claim5_witness :
    (∀ c, c ∈ wlifeDB.comments → c.id < wlifeDB.nextCommentId)
    ∧ (((runOps wlifeDB wlifeOps).2).Pairwise (· < ·)
      ∧ (∀ i, i ∈ (runOps wlifeDB wlifeOps).2 →
          ∀ c, c ∈ wlifeDB.comments → c.id < i)) :=
  ⟨by decide, claim5_create_ids_strictly_increase wlifeDB wlifeOps (by decide)⟩
